import Mathlib

/-!
# Verification of the PITA (Point-In-Time Architecture) versioning core

A shallow embedding of `src/pita/models.py` (django-pita): the Type-2
slowly-changing-dimension versioning layer.  Timestamps are modelled as
natural numbers counting microseconds since an epoch (Python `datetime`
has microsecond resolution); a calendar date is modelled as a day index.
A physical row of a versioned table is `Inst α` where `α` is the type of
the entity-specific payload (the concrete models of the test suite carry
one payload column plus one nullable `OneToOneField`).  The database
table is a `List (Inst α)`; Django's `Model.save` on an instance whose
primary key already exists rewrites the row in place, and a save of an
instance without a primary key appends a fresh row, which is what
`rawSave` below does.  Fallible paths (`assert` statements and raised
exceptions in the Python source) are modelled with `Except String`.
-/

namespace Pita

/-- Microseconds in one calendar day; `datetime.time.max` is the last
microsecond of the day, `usPerDay - 1`. -/
def usPerDay : Nat := 86400000000

/-- `datetime.datetime.combine(d, datetime.time.max)` for a day index
`d`: the last microsecond of that calendar day. -/
def endOfDay (d : Nat) : Nat := d * usPerDay + (usPerDay - 1)

/-- A time value supplied by a caller: either a full timestamp
(`datetime.datetime`, in microseconds) or a pure calendar date
(`datetime.date`, as a day index). -/
inductive TimeInput where
  | dt (n : Nat)
  | date (d : Nat)
deriving DecidableEq, Repr

/-- The normalization performed identically at the top of
`PointInTimeQuerySet.active` and `PointInTimeQuerySet.version`
(models.py lines 47-52 and 77-82): a datetime is used as given, a pure
date is replaced by `datetime.combine(date, time.max)`, the last instant
of that day. -/
def normalizeTimeInput : TimeInput → Nat
  | .dt n => n
  | .date d => endOfDay d

/-- One physical row of a versioned table (one version), after
`PointInTimeModel` in models.py.  `pk` is `none` for an in-memory
instance not yet written to the database.  `payload` stands for the
entity-specific concrete columns and `one_to_one` for a nullable
`OneToOneField` column.  Nullable columns are `Option`; `created_at` is
system-assigned on every write, so a bare `Nat` suffices. -/
structure Inst (α : Type) where
  pk : Option Nat
  row_id : Option Nat
  created_at : Nat
  replaced_at : Option Nat
  start_at : Option Nat
  end_at : Option Nat
  modified_by : Option Nat
  payload : α
  one_to_one : Option Nat
deriving DecidableEq, Repr

/-- The row predicate of `PointInTimeQuerySet.active` (models.py lines
54-57): `(end_at > active_at OR end_at IS NULL) AND start_at <=
active_at`.  A SQL NULL comparison is never satisfied, hence the `none`
cases. -/
def activePred (a : Nat) (r : Inst α) : Bool :=
  (match r.end_at with
    | some e => a < e
    | none => true) &&
  (match r.start_at with
    | some s => s ≤ a
    | none => false)

/-- `PointInTimeQuerySet.active` (models.py lines 36-57). -/
def qsActive (active_at : TimeInput) (qs : List (Inst α)) : List (Inst α) :=
  qs.filter (activePred (normalizeTimeInput active_at))

/-- `PointInTimeQuerySet.current` (models.py lines 59-65):
`filter(replaced_at__isnull=True)`. -/
def qsCurrent (qs : List (Inst α)) : List (Inst α) :=
  qs.filter (fun r => r.replaced_at = none)

/-- The row predicate of `PointInTimeQuerySet.version` (models.py lines
84-87): `(replaced_at > version_at OR replaced_at IS NULL) AND
created_at <= version_at`. -/
def versionPred (v : Nat) (r : Inst α) : Bool :=
  (match r.replaced_at with
    | some q => v < q
    | none => true) &&
  (r.created_at ≤ v)

/-- `PointInTimeQuerySet.version` (models.py lines 67-87). -/
def qsVersion (version_at : TimeInput) (qs : List (Inst α)) : List (Inst α) :=
  qs.filter (versionPred (normalizeTimeInput version_at))

/-- `PointInTimeBaseManager.active` (models.py lines 103-108):
`self.get_queryset().active(active_at).current()`. -/
def recordsActive (active_at : TimeInput) (table : List (Inst α)) : List (Inst α) :=
  qsCurrent (qsActive active_at table)

/-- `PointInTimeBaseManager.version` (models.py lines 116-132): the
full-history queryset filtered by `version`. -/
def recordsVersion (version_at : TimeInput) (table : List (Inst α)) : List (Inst α) :=
  qsVersion version_at table

/-- `utils.date_or_datetime` (utils.py lines 4-16) restricted to
non-null time values: a datetime whose time-of-day is exactly
`datetime.time.min` (midnight, i.e. a microsecond count divisible by
`usPerDay`) is turned into its pure date; any other input is returned
unchanged. -/
def date_or_datetime (v : TimeInput) : TimeInput :=
  match v with
  | .dt n => if n % usPerDay = 0 then .date (n / usPerDay) else .dt n
  | .date d => .date d

/-- `utils.datetime_from_web` (utils.py lines 18-41) on an
already-parsed value: a datetime passes through, a pure date becomes the
datetime at `time(0, 0, 0, 0)` (midnight) of that day. -/
def datetime_from_web (v : TimeInput) : TimeInput :=
  match v with
  | .dt n => .dt n
  | .date d => .dt (d * usPerDay)

/-- The bound actually compared against `created_at` when
`rollback_to_at` (models.py line 455) filters
`created_at__lte=time`: the rollback engine itself applies no
conversion to its `time` argument, and for a pure date Django's
`DateTimeField.to_python` coerces the date to midnight (the first
instant) of that day before the SQL comparison. -/
def rollbackTimeBound (v : TimeInput) : Nat :=
  match v with
  | .dt n => n
  | .date d => d * usPerDay

/-- A concrete field of the model as seen by Django introspection: its
name, whether it is the primary key, and whether it is a
`OneToOneField`. -/
structure FieldDesc where
  name : String
  primary_key : Bool
  one_to_one : Bool
deriving DecidableEq, Repr

/-- `get_one_to_one_fields` (models.py lines 12-20): the names of the
`OneToOneField`s of the model. -/
def get_one_to_one_fields (model : List FieldDesc) : List String :=
  (model.filter (fun f => f.one_to_one)).map (fun f => f.name)

/-- The skip chain of the field-copy loop in
`PointInTimeModel._rollback_to` (models.py lines 518-526), as the
decision for one field `f`: skip when an inclusion list is given and
does not name `f`, skip when the (already one-to-one-augmented)
exclusion list names `f`, skip the primary key, otherwise copy. -/
def revertsField (fields : Option (List String)) (excl : List String) (f : FieldDesc) : Bool :=
  if (match fields with
      | some fs => decide (¬ (f.name ∈ fs))
      | none => false) then false
  else if f.name ∈ excl then false
  else if f.primary_key then false
  else true

/-- The concrete-field list of the `Inst` model: the surrogate primary
key `id`, the five PITA bookkeeping columns, the payload column and one
`OneToOneField`. -/
def instFields : List FieldDesc :=
  [⟨"id", true, false⟩, ⟨"row_id", false, false⟩, ⟨"created_at", false, false⟩,
   ⟨"replaced_at", false, false⟩, ⟨"modified_by", false, false⟩,
   ⟨"start_at", false, false⟩, ⟨"end_at", false, false⟩,
   ⟨"payload", false, false⟩, ⟨"one_to_one", false, true⟩]

/-- `setattr(instance, field_name, None)` (models.py lines 181-182) on
the `Inst` model, by field name.  Only nullable columns can be nulled;
the clone path only ever passes `OneToOneField` names here. -/
def setFieldNone (name : String) (i : Inst α) : Inst α :=
  match name with
  | "row_id" => { i with row_id := none }
  | "replaced_at" => { i with replaced_at := none }
  | "modified_by" => { i with modified_by := none }
  | "start_at" => { i with start_at := none }
  | "end_at" => { i with end_at := none }
  | "one_to_one" => { i with one_to_one := none }
  | _ => i

/-- The field-copy loop of `PointInTimeModel._rollback_to` (models.py
lines 515-526), unrolled over the concrete fields of the `Inst` model
(the fields are independent, so the loop is its unrolling): each field
— the primary key included — is copied from `previous` onto `self`
exactly when the skip chain `revertsField` lets it through. -/
def copyFieldsFrom (fields : Option (List String)) (excl : List String)
    (previous self : Inst α) : Inst α :=
  { pk := if revertsField fields excl ⟨"id", true, false⟩ then previous.pk else self.pk
    row_id := if revertsField fields excl ⟨"row_id", false, false⟩ then previous.row_id else self.row_id
    created_at := if revertsField fields excl ⟨"created_at", false, false⟩ then previous.created_at else self.created_at
    replaced_at := if revertsField fields excl ⟨"replaced_at", false, false⟩ then previous.replaced_at else self.replaced_at
    start_at := if revertsField fields excl ⟨"start_at", false, false⟩ then previous.start_at else self.start_at
    end_at := if revertsField fields excl ⟨"end_at", false, false⟩ then previous.end_at else self.end_at
    modified_by := if revertsField fields excl ⟨"modified_by", false, false⟩ then previous.modified_by else self.modified_by
    payload := if revertsField fields excl ⟨"payload", false, false⟩ then previous.payload else self.payload
    one_to_one := if revertsField fields excl ⟨"one_to_one", false, true⟩ then previous.one_to_one else self.one_to_one }

/-- A row of an entity that declares a `FrozenForeignKey` to the
versioned entity (after `DummyRegularModel7FrozenForeignKey` of the
test suite): its own primary key, the frozen edge (a nullable column
holding the primary key of the referenced physical row), and its other
payload. -/
structure RefObj where
  pk : Nat
  frozen : Option Nat
  extra : Int
deriving DecidableEq, Repr

/-- `PointInTimeModel.move_frozen_relationships` (models.py lines
362-383): every live frozen edge whose value is `oldPk` is repointed to
`newPk`; the referencing row is written through its raw save, so the
row itself is rewritten in place (same `pk`, same other columns) and no
new row appears. -/
def repointEdge (oldPk newPk : Nat) (r : RefObj) : RefObj :=
  if r.frozen = some oldPk then { r with frozen := some newPk } else r

def moveFrozen (oldPk newPk : Nat) (refs : List RefObj) : List RefObj :=
  refs.map (repointEdge oldPk newPk)

/-- The payload read through a frozen edge: follow the stored physical
row primary key. -/
def resolveFrozen (edge : Option Nat) (table : List (Inst α)) : Option α :=
  match edge with
  | none => none
  | some q =>
    match table.find? (fun r => r.pk = some q) with
    | none => none
    | some r => some r.payload

/-- The next primary key the database assigns to an inserted row: one
more than the largest key in the table. -/
def freshPk (table : List (Inst α)) : Nat :=
  (table.map (fun r => r.pk.getD 0)).foldr max 0 + 1

/-- Rewriting the row with primary key `p` in place. -/
def updateRow (p : Nat) (v : Inst α) (table : List (Inst α)) : List (Inst α) :=
  table.map (fun r => if r.pk = some p then v else r)

/-- `PointInTimeModel._save` (models.py lines 356-360): the plain
Django write.  An instance without a primary key is inserted under a
fresh key; an instance with a primary key rewrites its row in place. -/
def rawSave (self : Inst α) (table : List (Inst α)) : Inst α × List (Inst α) :=
  match self.pk with
  | none =>
    let i := { self with pk := some (freshPk table) }
    (i, table ++ [i])
  | some p => (self, updateRow p self table)

/-- `PointInTimeModel._delete` (models.py lines 397-402): the plain
Django delete of this physical row. -/
def rawDelete (self : Inst α) (table : List (Inst α)) : List (Inst α) :=
  table.filter (fun r => ¬ (r.pk = self.pk))

/-- `PointInTimeDefaultManager.copy` (models.py lines 160-187): fetch
the current row with primary key `p`; if there is none return `none`;
otherwise clear its primary key, null every field named in `excl`, and
insert it as a brand-new row via `_save`. -/
def managerCopy (p : Nat) (excl : List String) (table : List (Inst α)) :
    Option (Inst α × List (Inst α)) :=
  match (qsCurrent table).find? (fun r => r.pk = some p) with
  | none => none
  | some instance0 =>
    let instance1 := { instance0 with pk := none }
    let instance2 := excl.foldl (fun i n => setFieldNone n i) instance1
    some (rawSave instance2 table)

/-- `PointInTimeModel.save` (models.py lines 285-354).  `now` is
`timezone.now()` captured once at the top; `user` is the optional
acting user.  On an update (the instance has a primary key): assert the
instance is not already replaced, clone the stored row with the
`OneToOneField`s nulled, stamp the clone with `replaced_at = now` and
`row_id = self.pk`, write it raw, repoint frozen edges from `self.pk`
onto the clone, then stamp `self` with `created_at = now`,
`replaced_at = None`, the acting user and a defaulted `start_at`, and
write it raw.  On a create: clear `row_id`/`replaced_at`, stamp the
same system fields, insert, then set `row_id` to the assigned primary
key and write again. -/
def pitaSave (now : Nat) (user : Option Nat) (self : Inst α)
    (table : List (Inst α)) (refs : List RefObj) :
    Except String (Inst α × List (Inst α) × List RefObj) :=
  match self.pk with
  | some p =>
    -- updating a row that has already been replaced is illegal
    if self.replaced_at ≠ none then .error "assert self.replaced_at is None failed"
    else
      match managerCopy p (get_one_to_one_fields instFields) table with
      | none => .error "assert original is not None failed"
      | some (original0, table1) =>
        let original1 := { original0 with replaced_at := some now, row_id := some p }
        let (original2, table2) := rawSave original1 table1
        let refs1 := moveFrozen p (original2.pk.getD 0) refs
        let self1 := { self with
          created_at := now
          replaced_at := none
          modified_by := user.or self.modified_by
          start_at := self.start_at.or (some now) }
        let (self2, table3) := rawSave self1 table2
        if self2.row_id = none then
          let self3 := { self2 with row_id := self2.pk }
          let (self4, table4) := rawSave self3 table3
          .ok (self4, table4, refs1)
        else
          .ok (self2, table3, refs1)
  | none =>
    let self0 := { self with row_id := (none : Option Nat), replaced_at := (none : Option Nat) }
    let self1 := { self0 with
      created_at := now
      replaced_at := none
      modified_by := user.or self0.modified_by
      start_at := self0.start_at.or (some now) }
    let (self2, table1) := rawSave self1 table
    if self2.row_id = none then
      let self3 := { self2 with row_id := self2.pk }
      let (self4, table2) := rawSave self3 table1
      .ok (self4, table2, refs)
    else
      .ok (self2, table1, refs)

/-- `PointInTimeModel.delete` (models.py lines 386-395): the soft
delete.  It sets `replaced_at` to the current time and writes the row
raw — with no check that the row was still current. -/
def pitaDelete (now : Nat) (self : Inst α) (table : List (Inst α)) :
    Inst α × List (Inst α) :=
  let self1 := { self with replaced_at := some now }
  rawSave self1 table

/-- `PointInTimeModel.purge` (models.py lines 404-416): raw-delete
every row sharing `self.row_id` other than `self`, then raw-delete
`self` itself. -/
def pitaPurge (self : Inst α) (table : List (Inst α)) : List (Inst α) :=
  let table1 := table.filter (fun r => ¬ (r.row_id = self.row_id ∧ ¬ r.pk = self.pk))
  rawDelete self table1

/-- `order_by("-created_at", "-pk").first()`: the row with the
lexicographically largest `(created_at, pk)`. -/
def latestBy (rows : List (Inst α)) : Option (Inst α) :=
  rows.foldl
    (fun best r =>
      match best with
      | none => some r
      | some b =>
        if b.created_at < r.created_at ∨
            (b.created_at = r.created_at ∧ b.pk.getD 0 < r.pk.getD 0) then some r
        else some b)
    none

/-- `PointInTimeModel._rollback_to` (models.py lines 492-543), the core
revert step.  Fails when reverting to the same row or when `self` is
not current; asserts `self.created_at > previous.created_at`; augments
the exclusion list with the `OneToOneField` names; copies the allowed
fields from `previous` onto `self`; re-stamps `replaced_at = None` and
`created_at = previous.created_at`; moves frozen edges from `previous`
onto `self`; raw-deletes every row of the group with `created_at >=
self.created_at` other than `self`; finally writes `self` raw. -/
def rollback_to (previous : Inst α) (fields : Option (List String))
    (exclude : Option (List String)) (self : Inst α)
    (table : List (Inst α)) (refs : List RefObj) :
    Except String (Inst α × List (Inst α) × List RefObj) :=
  if self.pk = previous.pk then
    .error "Cannot rollback to the same version of a row"
  else if self.replaced_at ≠ none then
    .error "Can only rollback a most recent version of a row"
  else if ¬ previous.created_at < self.created_at then
    .error "assert self.created_at > previous.created_at failed"
  else
    let excl := (exclude.getD []) ++ get_one_to_one_fields instFields
    let self1 := copyFieldsFrom fields excl previous self
    let self2 := { self1 with replaced_at := none, created_at := previous.created_at }
    let refs1 := moveFrozen (previous.pk.getD 0) (self2.pk.getD 0) refs
    let table1 := table.filter
      (fun r => ¬ (self2.created_at ≤ r.created_at ∧ r.row_id = self2.row_id ∧ ¬ r.pk = self2.pk))
    let (self3, table2) := rawSave self2 table1
    .ok (self3, table2, refs1)

/-- `PointInTimeModel.rollback_to_at` (models.py lines 437-468).  The
result instance is `none` when the whole group was purged.  `bound` is
the value compared against `created_at` (see `rollbackTimeBound`). -/
def rollback_to_at (bound : Nat) (fields : Option (List String))
    (exclude : Option (List String)) (self : Inst α)
    (table : List (Inst α)) (refs : List RefObj) :
    Except String (Option (Inst α) × List (Inst α) × List RefObj) :=
  if (table.filter (fun r => r.row_id = self.row_id ∧ self.created_at ≤ r.created_at)).length ≠ 1 then
    .error "assert self is the most up to date version failed"
  else
    match latestBy (table.filter (fun r => r.row_id = self.row_id ∧ r.created_at ≤ bound)) with
    | none => .ok (none, pitaPurge self table, refs)
    | some target =>
      if target.pk = self.pk then .ok (some self, table, refs)
      else
        match rollback_to target fields exclude self table refs with
        | .error e => .error e
        | .ok (s, t, f) => .ok (some s, t, f)

/-- `PointInTimeModel.rollback_latest` (models.py lines 470-490).  The
result instance is `none` when the row was raw-deleted because it had no
previous version. -/
def rollback_latest (fields : Option (List String)) (exclude : Option (List String))
    (self : Inst α) (table : List (Inst α)) (refs : List RefObj) :
    Except String (Option (Inst α) × List (Inst α) × List RefObj) :=
  match latestBy (table.filter (fun r => r.row_id = self.row_id ∧ ¬ r.pk = self.pk)) with
  | none => .ok (none, rawDelete self table, refs)
  | some previous =>
    match rollback_to previous fields exclude self table refs with
    | .error e => .error e
    | .ok (s, t, f) => .ok (some s, t, f)

/-- A current version: payload 20 since time 60, never replaced. -/
def c8cur : Inst Int :=
  { pk := some 1, row_id := some 1, created_at := 60, replaced_at := none,
    start_at := some 0, end_at := none, modified_by := none, payload := 20,
    one_to_one := none }

/-- A historical version: payload 10, current from 0 until replaced at 60. -/
def c8hist : Inst Int :=
  { pk := some 2, row_id := some 1, created_at := 0, replaced_at := some 60,
    start_at := some 0, end_at := none, modified_by := none, payload := 10,
    one_to_one := none }

/-- `c8hist` after the unchecked soft delete at time 100. -/
def c8mut : Inst Int :=
  { pk := some 2, row_id := some 1, created_at := 0, replaced_at := some 100,
    start_at := some 0, end_at := none, modified_by := none, payload := 10,
    one_to_one := none }

/-- A row group whose single version was created 1000 microseconds into
calendar day 6. -/
def c10row : Inst Int :=
  { pk := some 1, row_id := some 1, created_at := 6 * usPerDay + 1000,
    replaced_at := none, start_at := some 0, end_at := none,
    modified_by := none, payload := 10, one_to_one := none }

/-- In-memory current instance being saved: payload already edited to 20. -/
def w1self : Inst Int :=
  { pk := some 1, row_id := some 1, created_at := 100, replaced_at := none,
    start_at := some 100, end_at := none, modified_by := none, payload := 20,
    one_to_one := none }

/-- The stored (pre-update) row behind `w1self`. -/
def w1db : Inst Int :=
  { pk := some 1, row_id := some 1, created_at := 100, replaced_at := none,
    start_at := some 100, end_at := none, modified_by := none, payload := 10,
    one_to_one := none }

/-- The instance written back by the core revert step (`self` after the
field-copy loop and the `replaced_at`/`created_at` re-stamping of
models.py lines 528-530). -/
def rbUpd (fields exclude : Option (List String)) (previous self : Inst α) : Inst α :=
  { copyFieldsFrom fields ((exclude.getD []) ++ get_one_to_one_fields instFields) previous self with replaced_at := none, created_at := previous.created_at }

/-- Current version of the witness group for the revert theorems. -/
def w2self : Inst Int :=
  { pk := some 1, row_id := some 1, created_at := 200, replaced_at := none,
    start_at := some 0, end_at := none, modified_by := none, payload := 30,
    one_to_one := none }

/-- Historical version of the witness group for the revert theorems. -/
def w2prev : Inst Int :=
  { pk := some 2, row_id := some 1, created_at := 100, replaced_at := some 200,
    start_at := some 0, end_at := none, modified_by := none, payload := 10,
    one_to_one := none }

/-- The sole version of a fresh witness group. -/
def w4only : Inst Int :=
  { pk := some 5, row_id := some 5, created_at := 100, replaced_at := none,
    start_at := some 100, end_at := none, modified_by := none, payload := 7,
    one_to_one := none }

/-- Current version of a group: payload 20 since an update at 110. -/
def c5cur : Inst Int :=
  { pk := some 1, row_id := some 1, created_at := 110, replaced_at := none,
    start_at := some 100, end_at := none, modified_by := none, payload := 20,
    one_to_one := none }

/-- The historical clone holding the pre-update payload 10. -/
def c5clone : Inst Int :=
  { pk := some 2, row_id := some 1, created_at := 100, replaced_at := some 110,
    start_at := some 100, end_at := none, modified_by := none, payload := 10,
    one_to_one := none }

/-- A frozen edge formed after the update, pointing at the current row
(primary key 1), whose resolved payload at formation time is 20. -/
def c5edge : RefObj := { pk := 8, frozen := some 1, extra := 0 }

/-- The current row after `rollback_latest`: reverted to payload 10. -/
def c5out : Inst Int :=
  { pk := some 1, row_id := some 1, created_at := 100, replaced_at := none,
    start_at := some 100, end_at := none, modified_by := none, payload := 10,
    one_to_one := none }

/-- A frozen edge pointing at row 1 before its update. -/
def c5refA : RefObj := { pk := 7, frozen := some 1, extra := 0 }

/-- A frozen edge pointing at the historical clone (row 2). -/
def c5refB : RefObj := { pk := 9, frozen := some 2, extra := 5 }

/-- A freshly constructed in-memory instance (`MyModel(payload=a)`),
nothing set yet. -/
def newInst (a : α) : Inst α :=
  { pk := none, row_id := none, created_at := 0, replaced_at := none,
    start_at := none, end_at := none, modified_by := none, payload := a,
    one_to_one := none }

/-- `records.create(payload=a)` at time `t` against an empty table. -/
def createAt (t : Nat) (a : α) : Inst α × List (Inst α) :=
  match pitaSave t none (newInst a) [] [] with
  | .ok (i, tb, _) => (i, tb)
  | .error _ => (newInst a, [])

/-- One edit: assign a new payload to the in-memory current instance
and `save()` it at the given time. -/
def applyEdit (s : Inst α × List (Inst α)) (e : Nat × α) : Inst α × List (Inst α) :=
  match pitaSave e.1 none { s.1 with payload := e.2 } s.2 [] with
  | .ok (i, tb, _) => (i, tb)
  | .error _ => s

/-- Create at `t` with payload `a`, then perform the given edits in
order. -/
def buildChain (t : Nat) (a : α) (edits : List (Nat × α)) : Inst α × List (Inst α) :=
  edits.foldl applyEdit (createAt t a)

/-- The shape of the group's current row throughout a chain: stable
primary key 1 and group key 1, open transaction-time interval. -/
def mkCur (s0 t : Nat) (a : α) : Inst α :=
  { pk := some 1, row_id := some 1, created_at := t, replaced_at := none,
    start_at := some s0, end_at := none, modified_by := none, payload := a,
    one_to_one := none }

/-- The historical clones a chain of edits accumulates: the clone for
an edit at `t2` keeps the previous payload and carries the
transaction-time interval from the previous write time `t` to `t2`. -/
def chainHist (s0 k t : Nat) (a : α) (edits : List (Nat × α)) : List (Inst α) :=
  match edits with
  | [] => []
  | (t2, a2) :: rest =>
    { pk := some k, row_id := some 1, created_at := t, replaced_at := some t2,
      start_at := some s0, end_at := none, modified_by := none, payload := a,
      one_to_one := none } :: chainHist s0 (k + 1) t2 a2 rest

/-- The time of the last write of a chain. -/
def lastTime (t : Nat) (edits : List (Nat × α)) : Nat :=
  match edits with
  | [] => t
  | (t2, _) :: rest => lastTime t2 rest

/-- The payload of the last write of a chain. -/
def lastPayload (a : α) (edits : List (Nat × α)) : α :=
  match edits with
  | [] => a
  | (_, a2) :: rest => lastPayload a2 rest

/-- The transaction-time intervals `[created_at, replaced_at)` of a
list of rows. -/
def intervalsOf (l : List (Inst α)) : List (Nat × Option Nat) :=
  l.map (fun r => (r.created_at, r.replaced_at))

/-- The abutting interval list of a chain of edit times: `(t, t2)`,
`(t2, t3)`, ... -/
def timePairs (t : Nat) (edits : List (Nat × α)) : List (Nat × Option Nat) :=
  match edits with
  | [] => []
  | (t2, _) :: rest => (t, some t2) :: timePairs t2 rest

/-- The `version` predicate read off an interval. -/
def versionMatches (q : Nat) (iv : Nat × Option Nat) : Bool :=
  (match iv.2 with
    | some x => q < x
    | none => true) &&
  (iv.1 ≤ q)

/-! ## Theorems and supporting lemmas -/

/-- **C6.** For every datetime `a`, the manager operation `active(a)`
(`PointInTimeBaseManager.active`) returns exactly the versions with
`replaced_at = null`, `start_at <= a`, and `end_at` either null or
strictly greater than `a`; at the boundaries, a version with `start_at
= a` is included and a version with `end_at = a` is excluded. -/
theorem C6_manager_active_exact (α : Type) (a : Nat) (table : List (Inst α)) (r : Inst α) :
    (r ∈ recordsActive (.dt a) table ↔
      r ∈ table ∧ r.replaced_at = none ∧
        (∃ s, r.start_at = some s ∧ s ≤ a) ∧
        (r.end_at = none ∨ ∃ e, r.end_at = some e ∧ a < e)) ∧
    (r ∈ table → r.replaced_at = none → r.start_at = some a → r.end_at = none →
      r ∈ recordsActive (.dt a) table) ∧
    (r.end_at = some a → r ∉ recordsActive (.dt a) table) := by
  have H : r ∈ recordsActive (.dt a) table ↔
      r ∈ table ∧ r.replaced_at = none ∧
        (∃ s, r.start_at = some s ∧ s ≤ a) ∧
        (r.end_at = none ∨ ∃ e, r.end_at = some e ∧ a < e) := by
    unfold recordsActive qsCurrent qsActive normalizeTimeInput activePred
    rcases hs : r.start_at with _ | s <;> rcases he : r.end_at with _ | e <;>
      simp [List.mem_filter, hs, he] <;> tauto
  refine ⟨H, ?_, ?_⟩
  · intro h1 h2 h3 h4
    exact H.mpr ⟨h1, h2, ⟨a, h3, le_refl a⟩, Or.inl h4⟩
  · intro he hmem
    rcases (H.mp hmem).2.2.2 with h | ⟨e, he2, hlt⟩
    · rw [he] at h; exact Option.noConfusion h
    · rw [he] at he2
      exact absurd hlt (by simp [← Option.some_inj.mp he2])

/-- **C7.** The version query returns exactly the versions with
`created_at <= t'` and `replaced_at` null or strictly greater than
`t'`, where `t'` is the given timestamp for a datetime input and the
last instant (`usPerDay - 1` microseconds past midnight) of the
calendar day for a pure-date input; the same end-of-day normalization
applies to a pure date given to `active`. -/
theorem C7_version_window_and_date_normalization (α : Type) (table : List (Inst α)) (r : Inst α) :
    (∀ n : Nat, r ∈ recordsVersion (.dt n) table ↔
        r ∈ table ∧ r.created_at ≤ n ∧
          (r.replaced_at = none ∨ ∃ q, r.replaced_at = some q ∧ n < q)) ∧
    (∀ d : Nat, r ∈ recordsVersion (.date d) table ↔
        r ∈ table ∧ r.created_at ≤ d * usPerDay + (usPerDay - 1) ∧
          (r.replaced_at = none ∨ ∃ q, r.replaced_at = some q ∧ d * usPerDay + (usPerDay - 1) < q)) ∧
    (∀ (d : Nat) (tb : List (Inst α)),
      qsActive (.date d) tb = qsActive (.dt (d * usPerDay + (usPerDay - 1))) tb) := by
  refine ⟨?_, ?_, ?_⟩
  · intro n
    unfold recordsVersion qsVersion normalizeTimeInput versionPred
    rcases hq : r.replaced_at with _ | q <;>
      simp [List.mem_filter, hq] <;> tauto
  · intro d
    unfold recordsVersion qsVersion normalizeTimeInput versionPred endOfDay
    rcases hq : r.replaced_at with _ | q <;>
      simp [List.mem_filter, hq] <;> tauto
  · intro d tb
    unfold qsActive normalizeTimeInput endOfDay
    rfl

/-- **C8 (code bug).** `save` and the rollback entry points do fail on
a version whose `replaced_at` is non-null, but the soft delete
(`PointInTimeModel.delete`, models.py lines 386-395) performs no such
check: called on the historical version `c8hist` it silently overwrites
`replaced_at` (60 becomes 100) and rewrites the stored row, mutating a
version the model docstring declares immutable. -/
theorem C8_soft_delete_unchecked :
    pitaSave 100 none c8hist [c8cur, c8hist] [] =
      .error "assert self.replaced_at is None failed" ∧
    rollback_latest none none c8hist [c8cur, c8hist] [] =
      .error "Can only rollback a most recent version of a row" ∧
    rollback_to_at 100 none none c8hist [c8cur, c8hist] [] =
      .error "assert self is the most up to date version failed" ∧
    pitaDelete 100 c8hist [c8cur, c8hist] = (c8mut, [c8cur, c8mut]) ∧
    ¬ c8mut.replaced_at = c8hist.replaced_at :=
  ⟨rfl, rfl, rfl, rfl, by decide⟩

/-- **C10 (counterexample).** A rollback time of exactly midnight of
day 6 is turned into the pure date 6 by `date_or_datetime`, and
`rollback_to_at` applies no end-of-day normalization to it: on a group
whose only version was created during day 6, the midnight input purges
the group, while the last instant of day 6 — the bound the claim
asserts — would have selected that version and left the group alone. -/
theorem C10_counterexample :
    date_or_datetime (.dt (6 * usPerDay)) = .date 6 ∧
    rollback_to_at (rollbackTimeBound (date_or_datetime (.dt (6 * usPerDay))))
        none none c10row [c10row] [] = .ok (none, [], []) ∧
    rollback_to_at (endOfDay 6) none none c10row [c10row] [] =
      .ok (some c10row, [c10row], []) :=
  ⟨rfl, rfl, rfl⟩

/-- **C10 (amended).** A caller-supplied timestamp at exactly midnight
is indistinguishable from a date-only input: `date_or_datetime` turns
it into the pure date, so an `active_at` or `version_at` of exactly
midnight is normalized by the query engine to the last instant of that
calendar day; a rollback time of exactly midnight, however, receives no
end-of-day normalization from `rollback_to_at` and is compared as
midnight of that day — the supplied instant. -/
theorem C10_amended_midnight_normalization (n : Nat) (h : n % usPerDay = 0) :
    date_or_datetime (.dt n) = .date (n / usPerDay) ∧
    date_or_datetime (.dt n) = date_or_datetime (datetime_from_web (.date (n / usPerDay))) ∧
    normalizeTimeInput (date_or_datetime (.dt n)) = (n / usPerDay) * usPerDay + (usPerDay - 1) ∧
    rollbackTimeBound (date_or_datetime (.dt n)) = n := by
  have hd : usPerDay ∣ n := Nat.dvd_of_mod_eq_zero h
  have hmul : n / usPerDay * usPerDay = n := Nat.div_mul_cancel hd
  refine ⟨?_, ?_, ?_, ?_⟩ <;>
    simp [date_or_datetime, datetime_from_web, normalizeTimeInput, rollbackTimeBound,
      endOfDay, h, hmul, Nat.mul_mod_left, Nat.mul_div_cancel]

theorem C10_amended_witness :
    date_or_datetime (.dt 518400000000) = .date (518400000000 / usPerDay) ∧
    date_or_datetime (.dt 518400000000) =
      date_or_datetime (datetime_from_web (.date (518400000000 / usPerDay))) ∧
    normalizeTimeInput (date_or_datetime (.dt 518400000000)) =
      (518400000000 / usPerDay) * usPerDay + (usPerDay - 1) ∧
    rollbackTimeBound (date_or_datetime (.dt 518400000000)) = 518400000000 :=
  C10_amended_midnight_normalization 518400000000 (by decide)

/-- Under distinct field names, bearing a name listed by
`get_one_to_one_fields` is the same as being a `OneToOneField`. -/
theorem mem_one_to_one_fields_iff (model : List FieldDesc) (f : FieldDesc)
    (hf : f ∈ model) (hn : (model.map (fun g => g.name)).Nodup) :
    f.name ∈ get_one_to_one_fields model ↔ f.one_to_one = true := by
  constructor
  · intro h
    unfold get_one_to_one_fields at h
    simp only [List.mem_map, List.mem_filter] at h
    obtain ⟨g, ⟨hgmem, hgone⟩, hgname⟩ := h
    have hgf : g = f := List.inj_on_of_nodup_map hn hgmem hf hgname
    rw [← hgf]
    exact hgone
  · intro h
    unfold get_one_to_one_fields
    simp only [List.mem_map, List.mem_filter]
    exact ⟨f, ⟨hf, h⟩, rfl⟩

/-- The skip chain of `revertsField`, resolved into one proposition. -/
theorem revertsField_true_iff (fields : Option (List String)) (excl : List String)
    (f : FieldDesc) :
    revertsField fields excl f = true ↔
      (∀ fs, fields = some fs → f.name ∈ fs) ∧ ¬ f.name ∈ excl ∧ f.primary_key = false := by
  unfold revertsField
  rcases fields with _ | fs <;> split_ifs <;> simp_all

/-- **C3.** In the core revert step a concrete field is copied from the
target onto the current version exactly when it is not the primary key,
not a `OneToOneField`, not named in `exclude`, and either no `fields`
collection is supplied or the field is named in it; exclusion always
wins over inclusion and the primary key is never reverted. -/
theorem C3_revert_field_decision (fields exclude : Option (List String))
    (model : List FieldDesc) (f : FieldDesc) (hf : f ∈ model)
    (hn : (model.map (fun g => g.name)).Nodup) :
    (revertsField fields ((exclude.getD []) ++ get_one_to_one_fields model) f = true ↔
      f.primary_key = false ∧ f.one_to_one = false ∧
        ¬ f.name ∈ exclude.getD [] ∧ (fields = none ∨ f.name ∈ fields.getD [])) ∧
    (f.name ∈ fields.getD [] → f.name ∈ exclude.getD [] →
      revertsField fields ((exclude.getD []) ++ get_one_to_one_fields model) f = false) ∧
    (f.primary_key = true →
      revertsField fields ((exclude.getD []) ++ get_one_to_one_fields model) f = false) := by
  have hone := mem_one_to_one_fields_iff model f hf hn
  have key := revertsField_true_iff fields ((exclude.getD []) ++ get_one_to_one_fields model) f
  refine ⟨?_, ?_, ?_⟩
  · rw [key]
    constructor
    · rintro ⟨h1, h2, h3⟩
      obtain ⟨h2a, h2b⟩ := not_or.mp (fun h => h2 (List.mem_append.mpr h))
      refine ⟨h3, ?_, h2a, ?_⟩
      · cases ho : f.one_to_one
        · rfl
        · exact absurd (hone.mpr ho) h2b
      · rcases hfs : fields with _ | fs
        · exact Or.inl rfl
        · exact Or.inr (by simpa using h1 fs hfs)
    · rintro ⟨h3, ho, hex, hf2⟩
      refine ⟨?_, ?_, h3⟩
      · intro fs hfs
        rcases hf2 with h | h
        · rw [hfs] at h; exact Option.noConfusion h
        · rw [hfs] at h; simpa using h
      · rw [List.mem_append]
        rintro (h | h)
        · exact hex h
        · rw [hone] at h; rw [h] at ho; exact Bool.noConfusion ho
  · intro _ h2
    cases hrv : revertsField fields ((exclude.getD []) ++ get_one_to_one_fields model) f
    · rfl
    · exact absurd (List.mem_append.mpr (Or.inl h2)) (key.mp hrv).2.1
  · intro hpk
    cases hrv : revertsField fields ((exclude.getD []) ++ get_one_to_one_fields model) f
    · rfl
    · have h3 := (key.mp hrv).2.2
      rw [hpk] at h3
      exact Bool.noConfusion h3

theorem C3_witness :
    (revertsField none ((none.getD []) ++ get_one_to_one_fields instFields)
        ⟨"payload", false, false⟩ = true ↔
      (false : Bool) = false ∧ (false : Bool) = false ∧
        ¬ "payload" ∈ (none : Option (List String)).getD [] ∧
        ((none : Option (List String)) = none ∨
          "payload" ∈ (none : Option (List String)).getD [])) ∧
    ("payload" ∈ (none : Option (List String)).getD [] →
      "payload" ∈ (none : Option (List String)).getD [] →
      revertsField none ((none.getD []) ++ get_one_to_one_fields instFields)
        ⟨"payload", false, false⟩ = false) ∧
    ((false : Bool) = true →
      revertsField none ((none.getD []) ++ get_one_to_one_fields instFields)
        ⟨"payload", false, false⟩ = false) :=
  C3_revert_field_decision none none instFields ⟨"payload", false, false⟩
    (by decide) (by decide)

theorem C6_witness :
    (c8cur ∈ recordsActive (.dt 70) [c8cur] ↔
      c8cur ∈ [c8cur] ∧ c8cur.replaced_at = none ∧
        (∃ s, c8cur.start_at = some s ∧ s ≤ 70) ∧
        (c8cur.end_at = none ∨ ∃ e, c8cur.end_at = some e ∧ 70 < e)) ∧
    (c8cur ∈ [c8cur] → c8cur.replaced_at = none → c8cur.start_at = some 70 →
      c8cur.end_at = none → c8cur ∈ recordsActive (.dt 70) [c8cur]) ∧
    (c8cur.end_at = some 70 → c8cur ∉ recordsActive (.dt 70) [c8cur]) :=
  C6_manager_active_exact Int 70 [c8cur] c8cur

theorem C7_witness :
    (∀ n : Nat, c8hist ∈ recordsVersion (.dt n) [c8hist] ↔
        c8hist ∈ [c8hist] ∧ c8hist.created_at ≤ n ∧
          (c8hist.replaced_at = none ∨ ∃ q, c8hist.replaced_at = some q ∧ n < q)) ∧
    (∀ d : Nat, c8hist ∈ recordsVersion (.date d) [c8hist] ↔
        c8hist ∈ [c8hist] ∧ c8hist.created_at ≤ d * usPerDay + (usPerDay - 1) ∧
          (c8hist.replaced_at = none ∨
            ∃ q, c8hist.replaced_at = some q ∧ d * usPerDay + (usPerDay - 1) < q)) ∧
    (∀ (d : Nat) (tb : List (Inst Int)),
      qsActive (.date d) tb = qsActive (.dt (d * usPerDay + (usPerDay - 1))) tb) :=
  C7_version_window_and_date_normalization Int [c8hist] c8hist

/-! ## Helper lemmas about the raw storage primitives -/

theorem le_foldr_max (l : List Nat) (x : Nat) (hx : x ∈ l) : x ≤ l.foldr max 0 := by
  induction l with
  | nil => cases hx
  | cons y ys ih =>
    rcases List.mem_cons.mp hx with rfl | h
    · exact le_max_left _ _
    · exact le_trans (ih h) (le_max_right _ _)

/-- Every primary key present in the table is strictly below the fresh
one. -/
theorem pk_lt_freshPk (table : List (Inst α)) (r : Inst α) (hr : r ∈ table)
    (v : Nat) (hv : r.pk = some v) : v < freshPk table := by
  unfold freshPk
  have hm : v ∈ table.map (fun s => s.pk.getD 0) :=
    List.mem_map.mpr ⟨r, hr, by rw [hv]; rfl⟩
  exact Nat.lt_succ_of_le (le_foldr_max _ _ hm)

/-- The fresh primary key is unused. -/
theorem freshPk_not_mem (table : List (Inst α)) :
    ∀ r ∈ table, ¬ r.pk = some (freshPk table) := by
  intro r hr hpk
  exact lt_irrefl _ (pk_lt_freshPk table r hr _ hpk)

theorem updateRow_append (p : Nat) (v : Inst α) (t1 t2 : List (Inst α)) :
    updateRow p v (t1 ++ t2) = updateRow p v t1 ++ updateRow p v t2 := by
  simp [updateRow]

/-- Rewriting a primary key that no row carries changes nothing. -/
theorem updateRow_of_forall (p : Nat) (v : Inst α) (t : List (Inst α))
    (h : ∀ r ∈ t, ¬ r.pk = some p) : updateRow p v t = t := by
  induction t with
  | nil => rfl
  | cons a l ih =>
    simp only [updateRow, List.map_cons]
    rw [if_neg (h a (List.mem_cons_self a l))]
    have := ih (fun r hr => h r (List.mem_cons_of_mem a hr))
    unfold updateRow at this
    rw [this]

/-- `PointInTimeDefaultManager.copy` on a table whose current row with
key `p` is `db`: the result is `db` cloned under the fresh key with the
`OneToOneField` nulled, appended to the table. -/
theorem managerCopy_eq (α : Type) (p : Nat) (table : List (Inst α)) (db : Inst α)
    (hdb : (qsCurrent table).find? (fun r => r.pk = some p) = some db) :
    managerCopy p (get_one_to_one_fields instFields) table =
      some ({ db with pk := some (freshPk table), one_to_one := none },
        table ++ [{ db with pk := some (freshPk table), one_to_one := none }]) := by
  unfold managerCopy
  rw [hdb]
  rfl

/-- The computation performed by `save()` on the update path: the clone
of the stored row `db` is appended under the fresh key with
`replaced_at = now`, `row_id = p` and the `OneToOneField` nulled,
frozen edges are repointed from `p` to the fresh key, and the row `p`
is rewritten in place with `created_at = now` and `replaced_at =
None`. -/
theorem pitaSave_update_eq (α : Type) (now : Nat) (user : Option Nat)
    (self db : Inst α) (table : List (Inst α)) (refs : List RefObj) (p : Nat)
    (hpk : self.pk = some p) (hrep : self.replaced_at = none)
    (hrow : ¬ self.row_id = none)
    (hdb : (qsCurrent table).find? (fun r => r.pk = some p) = some db) :
    pitaSave now user self table refs =
      .ok ({ self with created_at := now, replaced_at := none, modified_by := user.or self.modified_by, start_at := self.start_at.or (some now) },
        updateRow p { self with created_at := now, replaced_at := none, modified_by := user.or self.modified_by, start_at := self.start_at.or (some now) } table ++
          [{ db with pk := some (freshPk table), replaced_at := some now, row_id := some p, one_to_one := none }],
        moveFrozen p (freshPk table) refs) := by
  have hdbmem : db ∈ table := List.mem_filter.mp (List.mem_of_find?_eq_some hdb) |>.1
  have hdbpk : db.pk = some p := by
    have := List.find?_some hdb
    simpa using this
  have hplt : p < freshPk table := pk_lt_freshPk table db hdbmem p hdbpk
  have hfresh := freshPk_not_mem table
  obtain ⟨spk, srow, scre, srep, ssta, send, smod, spay, sone⟩ := self
  obtain rfl : spk = some p := hpk
  obtain rfl : srep = (none : Option Nat) := hrep
  rcases srow with _ | sr
  · exact absurd rfl hrow
  have e1 : rawSave ({ db with pk := some (freshPk table), replaced_at := some now, row_id := some p, one_to_one := none } : Inst α)
      (table ++ [{ db with pk := some (freshPk table), one_to_one := none }]) =
      ({ db with pk := some (freshPk table), replaced_at := some now, row_id := some p, one_to_one := none },
        table ++ [{ db with pk := some (freshPk table), replaced_at := some now, row_id := some p, one_to_one := none }]) := by
    show (_, updateRow (freshPk table) _ (table ++ _)) = _
    rw [updateRow_append, updateRow_of_forall _ _ table hfresh]
    simp [updateRow]
  have e2 : rawSave (⟨some p, some sr, now, none, ssta.or (some now), send, user.or smod, spay, sone⟩ : Inst α)
      (table ++ [{ db with pk := some (freshPk table), replaced_at := some now, row_id := some p, one_to_one := none }]) =
      (⟨some p, some sr, now, none, ssta.or (some now), send, user.or smod, spay, sone⟩,
        updateRow p ⟨some p, some sr, now, none, ssta.or (some now), send, user.or smod, spay, sone⟩ table ++
        [{ db with pk := some (freshPk table), replaced_at := some now, row_id := some p, one_to_one := none }]) := by
    show (_, updateRow p _ (table ++ _)) = _
    rw [updateRow_append]
    congr 1
    simp only [updateRow, List.map_cons, List.map_nil]
    rw [if_neg]
    intro hc
    exact absurd (Option.some_inj.mp hc).symm (Nat.ne_of_lt hplt)
  unfold pitaSave
  dsimp only
  rw [managerCopy_eq α p table db hdb]
  dsimp only
  rw [e1]
  dsimp only
  rw [e2]
  rfl

/-- **C1.** `save()` invoked as an update on an existing current
version: the version keeps its primary key, ends with `replaced_at =
null` and `created_at = now`, and exactly one new physical row is
appended, holding the stored (pre-update) payload, validity window,
author and `created_at`, with `replaced_at = now`, `row_id` equal to
the updated version's primary key, and the `OneToOneField` nulled. -/
theorem C1_update_copy_on_write (α : Type) (now : Nat) (user : Option Nat)
    (self db : Inst α) (table : List (Inst α)) (refs : List RefObj) (p : Nat)
    (hpk : self.pk = some p) (hrep : self.replaced_at = none)
    (hrow : ¬ self.row_id = none)
    (hdb : (qsCurrent table).find? (fun r => r.pk = some p) = some db) :
    ∃ upd orig : Inst α,
      pitaSave now user self table refs =
        .ok (upd, updateRow p upd table ++ [orig], moveFrozen p (freshPk table) refs) ∧
      upd.pk = some p ∧ upd.replaced_at = none ∧ upd.created_at = now ∧
      upd.row_id = self.row_id ∧ upd.payload = self.payload ∧
      orig.payload = db.payload ∧ orig.start_at = db.start_at ∧
      orig.end_at = db.end_at ∧ orig.modified_by = db.modified_by ∧
      orig.created_at = db.created_at ∧
      orig.replaced_at = some now ∧ orig.row_id = some p ∧
      orig.one_to_one = none ∧ orig.pk = some (freshPk table) ∧
      (∀ r ∈ table, ¬ r.pk = some (freshPk table)) ∧
      (updateRow p upd table ++ [orig]).length = table.length + 1 ∧
      (∀ r ∈ table, ¬ r.pk = some p → r ∈ updateRow p upd table ++ [orig]) := by
  refine ⟨{ self with created_at := now, replaced_at := none, modified_by := user.or self.modified_by, start_at := self.start_at.or (some now) },
          { db with pk := some (freshPk table), replaced_at := some now, row_id := some p, one_to_one := none },
          pitaSave_update_eq α now user self db table refs p hpk hrep hrow hdb,
          hpk, rfl, rfl, rfl, rfl,
          rfl, rfl, rfl, rfl, rfl, rfl, rfl, rfl, rfl, freshPk_not_mem table, ?_, ?_⟩
  · simp [updateRow]
  · intro r hr hrp
    apply List.mem_append_left
    have hid : (fun x => if x.pk = some p then
        ({ self with created_at := now, replaced_at := none, modified_by := user.or self.modified_by, start_at := self.start_at.or (some now) } : Inst α) else x) r = r :=
      if_neg hrp
    exact hid ▸ List.mem_map_of_mem _ hr

theorem C1_witness :
    ∃ upd orig : Inst Int,
      pitaSave 200 none w1self [w1db] [] =
        .ok (upd, updateRow 1 upd [w1db] ++ [orig], moveFrozen 1 (freshPk [w1db]) []) ∧
      upd.pk = some 1 ∧ upd.replaced_at = none ∧ upd.created_at = 200 ∧
      upd.row_id = w1self.row_id ∧ upd.payload = w1self.payload ∧
      orig.payload = w1db.payload ∧ orig.start_at = w1db.start_at ∧
      orig.end_at = w1db.end_at ∧ orig.modified_by = w1db.modified_by ∧
      orig.created_at = w1db.created_at ∧
      orig.replaced_at = some 200 ∧ orig.row_id = some 1 ∧
      orig.one_to_one = none ∧ orig.pk = some (freshPk [w1db]) ∧
      (∀ r ∈ [w1db], ¬ r.pk = some (freshPk [w1db])) ∧
      (updateRow 1 upd [w1db] ++ [orig]).length = [w1db].length + 1 ∧
      (∀ r ∈ [w1db], ¬ r.pk = some 1 → r ∈ updateRow 1 upd [w1db] ++ [orig]) :=
  C1_update_copy_on_write Int 200 none w1self w1db [w1db] [] 1
    (by decide) (by decide) (by decide) (by decide)

/-- The primary key is never let through by the skip chain. -/
theorem revertsField_primary_false (fields : Option (List String)) (excl : List String)
    (f : FieldDesc) (hf : f.primary_key = true) :
    revertsField fields excl f = false := by
  rcases h : revertsField fields excl f with _ | _
  · rfl
  · have h3 := (revertsField_true_iff fields excl f).mp h |>.2.2
    rw [hf] at h3
    exact Bool.noConfusion h3

/-- The field-copy loop never reverts the primary key. -/
theorem copyFieldsFrom_pk (fields : Option (List String)) (excl : List String)
    (src dst : Inst α) : (copyFieldsFrom fields excl src dst).pk = dst.pk := by
  show (if revertsField fields excl ⟨"id", true, false⟩ then src.pk else dst.pk) = dst.pk
  rw [revertsField_primary_false fields excl ⟨"id", true, false⟩ rfl]
  rfl

/-- The computation performed by the core revert step on a current
version of a group: the reverted instance is written over row `vp`,
every group row with `created_at >= previous.created_at` other than
row `vp` is deleted, and frozen edges move from `tp` to `vp`. -/
theorem rollback_to_eq (α : Type) (fields exclude : Option (List String))
    (self previous : Inst α) (table : List (Inst α)) (refs : List RefObj)
    (g vp tp : Nat)
    (hvp : self.pk = some vp) (htp : previous.pk = some tp) (hne : ¬ vp = tp)
    (hrep : self.replaced_at = none) (hlt : previous.created_at < self.created_at)
    (hg : self.row_id = some g) (hgp : previous.row_id = some g) :
    rollback_to previous fields exclude self table refs =
      .ok (rbUpd fields exclude previous self,
        updateRow vp (rbUpd fields exclude previous self) (table.filter
          (fun r => ¬ (previous.created_at ≤ r.created_at ∧ r.row_id = some g ∧ ¬ r.pk = some vp))),
        moveFrozen tp vp refs) ∧
    (rbUpd fields exclude previous self).pk = some vp ∧
    (rbUpd fields exclude previous self).row_id = some g ∧
    (rbUpd fields exclude previous self).replaced_at = none ∧
    (rbUpd fields exclude previous self).created_at = previous.created_at := by
  obtain ⟨spk, srow, scre, srep, ssta, send, smod, spay, sone⟩ := self
  obtain rfl : spk = some vp := hvp
  obtain rfl : srep = (none : Option Nat) := hrep
  obtain rfl : srow = some g := hg
  simp only at hlt
  have hpkne : ¬ (some vp : Option Nat) = previous.pk := by
    rw [htp]
    intro h
    exact hne (Option.some_inj.mp h)
  have hidf := revertsField_primary_false fields
    ((exclude.getD []) ++ get_one_to_one_fields instFields) ⟨"id", true, false⟩ rfl
  have hurow : (rbUpd fields exclude previous ⟨some vp, some g, scre, none, ssta, send, smod, spay, sone⟩ : Inst α).row_id = some g := by
    show (if revertsField fields ((exclude.getD []) ++ get_one_to_one_fields instFields) ⟨"row_id", false, false⟩ then previous.row_id else some g) = some g
    rcases h : revertsField fields ((exclude.getD []) ++ get_one_to_one_fields instFields) ⟨"row_id", false, false⟩ with _ | _
    · simp [h]
    · simp [h, hgp]
  refine ⟨?_, copyFieldsFrom_pk fields _ previous _, hurow, rfl, rfl⟩
  unfold rollback_to
  rw [if_neg hpkne]
  dsimp only
  rw [if_neg (not_not_intro hlt), htp]
  unfold rbUpd copyFieldsFrom
  dsimp only
  rcases hrg : revertsField fields ((exclude.getD []) ++ get_one_to_one_fields instFields) ⟨"row_id", false, false⟩ with _ | _
  · simp only [hidf, hrg, Bool.false_eq_true, if_false, Option.getD_some]
    rfl
  · simp only [hidf, hrg, Bool.false_eq_true, if_false, if_true, hgp, Option.getD_some]
    rfl

/-- **C2.** A successful core revert of a current version `self` to an
earlier `previous` of the same group: afterwards the instance has
`replaced_at = null`, `created_at` equal to the target's, an unchanged
primary key and group key; no version of the group with `created_at >=
previous.created_at` other than the reverted row itself survives
(`previous` and every intervening version are physically destroyed),
while versions of the group older than the target are untouched. -/
theorem C2_core_revert (α : Type) (fields exclude : Option (List String))
    (self previous : Inst α) (table : List (Inst α)) (refs : List RefObj)
    (g vp tp : Nat)
    (hvp : self.pk = some vp) (htp : previous.pk = some tp) (hne : ¬ vp = tp)
    (hrep : self.replaced_at = none) (hlt : previous.created_at < self.created_at)
    (hg : self.row_id = some g) (hgp : previous.row_id = some g) :
    ∃ upd : Inst α,
      rollback_to previous fields exclude self table refs =
        .ok (upd,
          updateRow vp upd (table.filter
            (fun r => ¬ (previous.created_at ≤ r.created_at ∧ r.row_id = some g ∧ ¬ r.pk = some vp))),
          moveFrozen tp vp refs) ∧
      upd.pk = some vp ∧ upd.replaced_at = none ∧
      upd.created_at = previous.created_at ∧ upd.row_id = some g ∧
      (∀ r ∈ updateRow vp upd (table.filter
          (fun r => ¬ (previous.created_at ≤ r.created_at ∧ r.row_id = some g ∧ ¬ r.pk = some vp))),
        r.row_id = some g → r.pk = some vp ∨ r.created_at < previous.created_at) ∧
      (∀ r ∈ table, r.row_id = some g → r.created_at < previous.created_at →
        ¬ r.pk = some vp → r ∈ updateRow vp upd (table.filter
          (fun r => ¬ (previous.created_at ≤ r.created_at ∧ r.row_id = some g ∧ ¬ r.pk = some vp)))) := by
  obtain ⟨heq, hupk, hurow, hurep, hucre⟩ :=
    rollback_to_eq α fields exclude self previous table refs g vp tp
      hvp htp hne hrep hlt hg hgp
  refine ⟨rbUpd fields exclude previous self, heq, hupk, hurep, hucre, hurow, ?_, ?_⟩
  · intro r hr hrg
    obtain ⟨r0, hr0, hre⟩ := List.mem_map.mp hr
    by_cases hc : r0.pk = some vp
    · rw [if_pos hc] at hre
      exact Or.inl (hre ▸ hupk)
    · rw [if_neg hc] at hre
      subst hre
      have hk := List.of_mem_filter hr0
      simp only [decide_eq_true_eq, not_and, Decidable.not_not] at hk
      by_cases hle : previous.created_at ≤ r0.created_at
      · exact Or.inl (hk hle hrg)
      · exact Or.inr (Nat.lt_of_not_le hle)
  · intro r hr hrg hrc hrp
    apply List.mem_map.mpr
    refine ⟨r, ?_, if_neg hrp⟩
    apply List.mem_filter.mpr
    refine ⟨hr, ?_⟩
    simp only [decide_eq_true_eq, not_and, Decidable.not_not]
    intro hle
    exact absurd hrc (Nat.not_lt_of_le hle)

theorem C2_witness :
    ∃ upd : Inst Int,
      rollback_to w2prev none none w2self [w2self, w2prev] [] =
        .ok (upd,
          updateRow 1 upd ([w2self, w2prev].filter
            (fun r => ¬ (w2prev.created_at ≤ r.created_at ∧ r.row_id = some 1 ∧ ¬ r.pk = some 1))),
          moveFrozen 2 1 []) ∧
      upd.pk = some 1 ∧ upd.replaced_at = none ∧
      upd.created_at = w2prev.created_at ∧ upd.row_id = some 1 ∧
      (∀ r ∈ updateRow 1 upd ([w2self, w2prev].filter
          (fun r => ¬ (w2prev.created_at ≤ r.created_at ∧ r.row_id = some 1 ∧ ¬ r.pk = some 1))),
        r.row_id = some 1 → r.pk = some 1 ∨ r.created_at < w2prev.created_at) ∧
      (∀ r ∈ [w2self, w2prev], r.row_id = some 1 → r.created_at < w2prev.created_at →
        ¬ r.pk = some 1 → r ∈ updateRow 1 upd ([w2self, w2prev].filter
          (fun r => ¬ (w2prev.created_at ≤ r.created_at ∧ r.row_id = some 1 ∧ ¬ r.pk = some 1)))) :=
  C2_core_revert Int none none w2self w2prev [w2self, w2prev] [] 1 1 2
    (by decide) (by decide) (by decide) (by decide) (by decide) (by decide) (by decide)

/-- **C4.** A rollback whose target does not exist erases the row group
without reporting an error: `rollback_to_at` with a bound before every
`created_at` of the group purges the whole group (zero versions of the
group remain), and `rollback_latest` on a version with no other version
in its group raw-deletes that version, leaving the group empty. -/
theorem C4_missing_target_erases_group (α : Type) (self : Inst α)
    (table : List (Inst α)) (refs : List RefObj) (bound : Nat)
    (fields exclude : Option (List String)) :
    (((table.filter (fun r => r.row_id = self.row_id ∧ self.created_at ≤ r.created_at)).length = 1 ∧
        (∀ r ∈ table, r.row_id = self.row_id → bound < r.created_at)) →
      rollback_to_at bound fields exclude self table refs = .ok (none, pitaPurge self table, refs) ∧
        ∀ r ∈ pitaPurge self table, ¬ r.row_id = self.row_id) ∧
    ((∀ r ∈ table, r.row_id = self.row_id → r.pk = self.pk) →
      rollback_latest fields exclude self table refs =
          .ok (none, table.filter (fun r => ¬ r.pk = self.pk), refs) ∧
        ∀ r ∈ table.filter (fun r => ¬ r.pk = self.pk), ¬ r.row_id = self.row_id) := by
  constructor
  · rintro ⟨hassert, hnone⟩
    have hfe : table.filter (fun r => r.row_id = self.row_id ∧ r.created_at ≤ bound) = [] := by
      rw [List.filter_eq_nil]
      intro r hr
      simp only [decide_eq_true_eq, not_and]
      intro hrg
      exact Nat.not_le_of_lt (hnone r hr hrg)
    constructor
    · unfold rollback_to_at
      rw [if_neg (fun h => h hassert), hfe]
      rfl
    · intro r hr hrg
      unfold pitaPurge rawDelete at hr
      have h2 := List.of_mem_filter hr
      have h1 := List.of_mem_filter (List.mem_of_mem_filter hr)
      simp only [decide_eq_true_eq, not_and, Decidable.not_not] at h1 h2
      exact h2 (h1 hrg)
  · intro honly
    have hf2 : table.filter (fun r => r.row_id = self.row_id ∧ ¬ r.pk = self.pk) = [] := by
      rw [List.filter_eq_nil]
      intro r hr
      simp only [decide_eq_true_eq, not_and, Decidable.not_not]
      exact fun hrg => honly r hr hrg
    constructor
    · unfold rollback_latest
      rw [hf2]
      rfl
    · intro r hr hrg
      have h2 := List.of_mem_filter hr
      simp only [decide_eq_true_eq, Decidable.not_not] at h2
      exact h2 (honly r (List.mem_of_mem_filter hr) hrg)

theorem C4_witness :
    (rollback_to_at 50 none none w4only [w4only] [] =
        .ok (none, pitaPurge w4only [w4only], []) ∧
      ∀ r ∈ pitaPurge w4only [w4only], ¬ r.row_id = w4only.row_id) ∧
    (rollback_latest none none w4only [w4only] [] =
        .ok (none, [w4only].filter (fun r => ¬ r.pk = w4only.pk), []) ∧
      ∀ r ∈ [w4only].filter (fun r => ¬ r.pk = w4only.pk), ¬ r.row_id = w4only.row_id) :=
  ⟨(C4_missing_target_erases_group Int w4only [w4only] [] 50 none none).1
      ⟨by decide, by decide⟩,
    (C4_missing_target_erases_group Int w4only [w4only] [] 50 none none).2
      (by decide)⟩

/-- In a table with pairwise-distinct primary keys, looking a key up
finds exactly the row known to carry it. -/
theorem find?_pk_eq_of_nodup (table : List (Inst α)) (a : Inst α) (q : Nat)
    (hn : (table.map (fun r => r.pk)).Nodup) (ha : a ∈ table) (hpk : a.pk = some q) :
    table.find? (fun r => r.pk = some q) = some a := by
  induction table with
  | nil => cases ha
  | cons x xs ih =>
    simp only [List.map_cons, List.nodup_cons] at hn
    by_cases hx : x.pk = some q
    · rw [List.find?_cons_of_pos _ (by simp [hx])]
      rcases List.mem_cons.mp ha with rfl | hmem
      · rfl
      · exfalso
        have hmap : a.pk ∈ xs.map (fun r => r.pk) := List.mem_map_of_mem _ hmem
        rw [hpk, ← hx] at hmap
        exact hn.1 hmap
    · rw [List.find?_cons_of_neg _ (by simp [hx])]
      rcases List.mem_cons.mp ha with rfl | hmem
      · exact absurd hpk hx
      · exact ih hn.2 hmem

/-- Rewriting row `p` in place does not change the lookup of a
different key `q`. -/
theorem find?_pk_updateRow_ne (p q : Nat) (hqp : ¬ q = p) (v : Inst α)
    (hv : v.pk = some p) (l : List (Inst α)) :
    (updateRow p v l).find? (fun r => r.pk = some q) = l.find? (fun r => r.pk = some q) := by
  have hvq : ¬ v.pk = some q := by
    rw [hv]
    intro h
    exact hqp (Option.some_inj.mp h).symm
  induction l with
  | nil => rfl
  | cons x xs ih =>
    show ((if x.pk = some p then v else x) :: updateRow p v xs).find? _ = _
    by_cases hx : x.pk = some p
    · rw [if_pos hx]
      rw [List.find?_cons_of_neg _ (by simp [hvq])]
      rw [List.find?_cons_of_neg _ (by simp [hx]; exact fun h => hqp h.symm)]
      exact ih
    · rw [if_neg hx]
      by_cases hq : x.pk = some q
      · rw [List.find?_cons_of_pos _ (by simp [hq]), List.find?_cons_of_pos _ (by simp [hq])]
      · rw [List.find?_cons_of_neg _ (by simp [hq]), List.find?_cons_of_neg _ (by simp [hq])]
        exact ih

/-- After rewriting row `p` in place with `v`, looking up `p` finds
`v`, provided some row carried `p`. -/
theorem find?_pk_updateRow_self (p : Nat) (v : Inst α) (hv : v.pk = some p)
    (l : List (Inst α)) (hex : ∃ r ∈ l, r.pk = some p) :
    (updateRow p v l).find? (fun r => r.pk = some p) = some v := by
  induction l with
  | nil =>
    obtain ⟨r, hr, _⟩ := hex
    cases hr
  | cons x xs ih =>
    show ((if x.pk = some p then v else x) :: updateRow p v xs).find? _ = _
    by_cases hx : x.pk = some p
    · rw [if_pos hx]
      exact List.find?_cons_of_pos _ (by simp [hv])
    · rw [if_neg hx]
      rw [List.find?_cons_of_neg _ (by simp [hx])]
      apply ih
      obtain ⟨r, hr, hrpk⟩ := hex
      rcases List.mem_cons.mp hr with rfl | hmem
      · exact absurd hrpk hx
      · exact ⟨r, hmem, hrpk⟩

/-- **C5 (counterexample).** A frozen edge pointing at the current
version resolves to payload 20 before a rollback; the rollback leaves
the edge where it is (only edges at the rollback target are moved) and
reverts the row it points at, so afterwards the same edge resolves to
payload 10: the resolved payload of a frozen reference is not invariant
under rollback of the referenced entity. -/
theorem C5_counterexample :
    resolveFrozen c5edge.frozen [c5cur, c5clone] = some 20 ∧
    rollback_latest none none c5cur [c5cur, c5clone] [c5edge] =
      .ok (some c5out, [c5out], [c5edge]) ∧
    resolveFrozen c5edge.frozen [c5out] = some 10 ∧
    ¬ (some (10 : Int) = some (20 : Int)) :=
  ⟨rfl, rfl, rfl, by decide⟩

/-- **C5 (amended).** On update, every frozen edge whose target is the
identifier being reused is repointed to the clone holding the old
payload, and every frozen edge's resolved payload is unchanged; the
repointing rewrites the referencing rows in place (same keys, same
other columns, no new row).  On rollback, edges pointing at the
rollback target are repointed to the reverted current row and keep
their resolved payload; but an edge already pointing at the current row
stays there and afterwards resolves to the reverted (target) payload,
not the payload it resolved to before. -/
theorem C5_amended_frozen_reference_payloads (α : Type) :
    (∀ (now : Nat) (user : Option Nat) (self db : Inst α) (table : List (Inst α))
        (refs : List RefObj) (p : Nat),
      self.pk = some p → self.replaced_at = none → ¬ self.row_id = none →
      (table.map (fun r => r.pk)).Nodup →
      db ∈ table → db.pk = some p → db.replaced_at = none →
      (∀ e ∈ refs, ∀ q, e.frozen = some q → ∃ r ∈ table, r.pk = some q) →
      ∃ upd : Inst α, ∃ table2 : List (Inst α),
        pitaSave now user self table refs =
          .ok (upd, table2, moveFrozen p (freshPk table) refs) ∧
        (moveFrozen p (freshPk table) refs).length = refs.length ∧
        (∀ e ∈ refs,
          (repointEdge p (freshPk table) e).pk = e.pk ∧
          (repointEdge p (freshPk table) e).extra = e.extra ∧
          resolveFrozen (repointEdge p (freshPk table) e).frozen table2 =
            resolveFrozen e.frozen table)) ∧
    (∀ (self previous : Inst α) (table : List (Inst α)) (refs : List RefObj) (g vp tp : Nat),
      self.pk = some vp → previous.pk = some tp → ¬ vp = tp →
      self.replaced_at = none → previous.created_at < self.created_at →
      self.row_id = some g → previous.row_id = some g →
      (table.map (fun r => r.pk)).Nodup →
      previous ∈ table → (∃ rv ∈ table, rv.pk = some vp) →
      ∃ upd : Inst α, ∃ table2 : List (Inst α),
        rollback_to previous none none self table refs =
          .ok (upd, table2, moveFrozen tp vp refs) ∧
        upd.payload = previous.payload ∧
        (moveFrozen tp vp refs).length = refs.length ∧
        (∀ e ∈ refs, (repointEdge tp vp e).pk = e.pk ∧ (repointEdge tp vp e).extra = e.extra) ∧
        (∀ e ∈ refs, e.frozen = some tp →
          (repointEdge tp vp e).frozen = some vp ∧
          resolveFrozen (repointEdge tp vp e).frozen table2 = resolveFrozen e.frozen table) ∧
        (∀ e ∈ refs, e.frozen = some vp →
          (repointEdge tp vp e).frozen = some vp ∧
          resolveFrozen (repointEdge tp vp e).frozen table2 = some previous.payload)) := by
  constructor
  · intro now user self db table refs p hpk hrep hrow hnodup hdbmem hdbpk hdbrep hrefs
    have hsub : ((qsCurrent table).map (fun r => r.pk)).Nodup :=
      hnodup.sublist ((List.filter_sublist table).map (fun r => r.pk))
    have hdbcur : db ∈ qsCurrent table := List.mem_filter.mpr ⟨hdbmem, by simp [hdbrep]⟩
    have hdbfind : (qsCurrent table).find? (fun r => r.pk = some p) = some db :=
      find?_pk_eq_of_nodup (qsCurrent table) db p hsub hdbcur hdbpk
    have heq := pitaSave_update_eq α now user self db table refs p hpk hrep hrow hdbfind
    have hplt : p < freshPk table := pk_lt_freshPk table db hdbmem p hdbpk
    have hfresh := freshPk_not_mem table
    have hupdpk : ({ self with created_at := now, replaced_at := none, modified_by := user.or self.modified_by, start_at := self.start_at.or (some now) } : Inst α).pk = some p := hpk
    refine ⟨{ self with created_at := now, replaced_at := none, modified_by := user.or self.modified_by, start_at := self.start_at.or (some now) },
      updateRow p { self with created_at := now, replaced_at := none, modified_by := user.or self.modified_by, start_at := self.start_at.or (some now) } table ++
        [{ db with pk := some (freshPk table), replaced_at := some now, row_id := some p, one_to_one := none }],
      heq, List.length_map refs _, ?_⟩
    intro e he
    refine ⟨?_, ?_, ?_⟩
    · unfold repointEdge
      split
      · rfl
      · rfl
    · unfold repointEdge
      split
      · rfl
      · rfl
    · rcases hef : e.frozen with _ | q
      · simp [repointEdge, hef, resolveFrozen]
      · by_cases hq : q = p
        · subst hq
          have hre : (repointEdge q (freshPk table) e).frozen = some (freshPk table) := by
            simp [repointEdge, hef]
          rw [hre]
          unfold resolveFrozen
          dsimp only
          rw [find?_pk_eq_of_nodup table db q hnodup hdbmem hdbpk]
          rw [List.find?_append]
          have hnone : (updateRow q { self with created_at := now, replaced_at := none, modified_by := user.or self.modified_by, start_at := self.start_at.or (some now) } table).find?
              (fun r => r.pk = some (freshPk table)) = none := by
            rw [List.find?_eq_none]
            intro r hr
            obtain ⟨r0, hr0, hre0⟩ := List.mem_map.mp hr
            by_cases hc : r0.pk = some q
            · rw [if_pos hc] at hre0
              rw [← hre0]
              simp only [decide_eq_true_eq]
              rw [hupdpk]
              intro hcon
              exact absurd (Option.some_inj.mp hcon) (Nat.ne_of_lt hplt)
            · rw [if_neg hc] at hre0
              rw [← hre0]
              simp only [decide_eq_true_eq]
              exact hfresh r0 hr0
          rw [hnone]
          rw [List.find?_cons_of_pos _ (by simp)]
          rfl
        · have hre : repointEdge p (freshPk table) e = e := by
            unfold repointEdge
            rw [hef, if_neg (fun h => hq (Option.some_inj.mp h))]
          rw [hre]
          obtain ⟨r, hrmem, hrpk⟩ := hrefs e he q hef
          unfold resolveFrozen
          rw [hef]
          dsimp only
          rw [List.find?_append,
            find?_pk_updateRow_ne p q hq { self with created_at := now, replaced_at := none, modified_by := user.or self.modified_by, start_at := self.start_at.or (some now) } hupdpk table,
            find?_pk_eq_of_nodup table r q hnodup hrmem hrpk]
          rfl
  · intro self previous table refs g vp tp hvp htp hne hrep hlt hg hgp hnodup hprevmem hv
    obtain ⟨heq, hupk, hurow, hurep, hucre⟩ :=
      rollback_to_eq α none none self previous table refs g vp tp
        hvp htp hne hrep hlt hg hgp
    have hupay : (rbUpd none none previous self).payload = previous.payload := by
      show (if revertsField none (((none : Option (List String)).getD []) ++ get_one_to_one_fields instFields) ⟨"payload", false, false⟩ then previous.payload else self.payload) = previous.payload
      rw [if_pos (by decide)]
    have hexists : ∃ r ∈ table.filter
        (fun r => ¬ (previous.created_at ≤ r.created_at ∧ r.row_id = some g ∧ ¬ r.pk = some vp)),
        r.pk = some vp := by
      obtain ⟨rv, hrv, hrvpk⟩ := hv
      refine ⟨rv, List.mem_filter.mpr ⟨hrv, ?_⟩, hrvpk⟩
      simp [hrvpk]
    have hfself := find?_pk_updateRow_self vp (rbUpd none none previous self) hupk _ hexists
    refine ⟨rbUpd none none previous self,
      updateRow vp (rbUpd none none previous self) (table.filter
        (fun r => ¬ (previous.created_at ≤ r.created_at ∧ r.row_id = some g ∧ ¬ r.pk = some vp))),
      heq, hupay, List.length_map refs _, ?_, ?_, ?_⟩
    · intro e he
      constructor
      · unfold repointEdge
        split
        · rfl
        · rfl
      · unfold repointEdge
        split
        · rfl
        · rfl
    · intro e he hef
      have hre : (repointEdge tp vp e).frozen = some vp := by
        simp [repointEdge, hef]
      refine ⟨hre, ?_⟩
      rw [hre, hef]
      unfold resolveFrozen
      dsimp only
      rw [find?_pk_eq_of_nodup table previous tp hnodup hprevmem htp, hfself]
      dsimp only
      rw [hupay]
    · intro e he hef
      have hq : ¬ ((some vp : Option Nat) = some tp) := fun h => hne (Option.some_inj.mp h)
      have hre : repointEdge tp vp e = e := by
        unfold repointEdge
        rw [hef, if_neg hq]
      constructor
      · rw [hre, hef]
      · rw [hre, hef]
        unfold resolveFrozen
        dsimp only
        rw [hfself]
        dsimp only
        rw [hupay]

theorem C5_amended_witness :
    (∃ upd : Inst Int, ∃ table2 : List (Inst Int),
      pitaSave 110 none w1self [w1db] [c5refA] =
        .ok (upd, table2, moveFrozen 1 (freshPk [w1db]) [c5refA]) ∧
      (moveFrozen 1 (freshPk [w1db]) [c5refA]).length = [c5refA].length ∧
      (∀ e ∈ [c5refA],
        (repointEdge 1 (freshPk [w1db]) e).pk = e.pk ∧
        (repointEdge 1 (freshPk [w1db]) e).extra = e.extra ∧
        resolveFrozen (repointEdge 1 (freshPk [w1db]) e).frozen table2 =
          resolveFrozen e.frozen [w1db])) ∧
    (∃ upd : Inst Int, ∃ table2 : List (Inst Int),
      rollback_to c5clone none none c5cur [c5cur, c5clone] [c5refB] =
        .ok (upd, table2, moveFrozen 2 1 [c5refB]) ∧
      upd.payload = c5clone.payload ∧
      (moveFrozen 2 1 [c5refB]).length = [c5refB].length ∧
      (∀ e ∈ [c5refB], (repointEdge 2 1 e).pk = e.pk ∧ (repointEdge 2 1 e).extra = e.extra) ∧
      (∀ e ∈ [c5refB], e.frozen = some 2 →
        (repointEdge 2 1 e).frozen = some 1 ∧
        resolveFrozen (repointEdge 2 1 e).frozen table2 =
          resolveFrozen e.frozen [c5cur, c5clone]) ∧
      (∀ e ∈ [c5refB], e.frozen = some 1 →
        (repointEdge 2 1 e).frozen = some 1 ∧
        resolveFrozen (repointEdge 2 1 e).frozen table2 = some c5clone.payload)) :=
  ⟨(C5_amended_frozen_reference_payloads Int).1 110 none w1self w1db [w1db] [c5refA] 1
      (by decide) (by decide) (by decide) (by decide) (by decide) (by decide) (by decide)
      (by
        intro e he q hq
        obtain rfl : e = c5refA := List.mem_singleton.mp he
        obtain rfl : (1 : Nat) = q := Option.some_inj.mp hq
        exact ⟨w1db, List.mem_singleton.mpr rfl, rfl⟩),
    (C5_amended_frozen_reference_payloads Int).2 c5cur c5clone [c5cur, c5clone] [c5refB] 1 1 2
      (by decide) (by decide) (by decide) (by decide) (by decide) (by decide) (by decide)
      (by decide) (by decide) (by decide)⟩

theorem foldr_max_append (l : List Nat) (x : Nat) :
    (l ++ [x]).foldr max 0 = max (l.foldr max 0) x := by
  induction l with
  | nil => simp [Nat.max_comm]
  | cons y ys ih =>
    simp only [List.cons_append, List.foldr_cons, ih]
    rw [Nat.max_assoc]

/-- One edit applied to a well-shaped chain state: the current row is
rewritten in place with the new time and payload, and one historical
clone is appended under the next fresh key, carrying the previous
payload and the interval from the previous write time to the edit
time. -/
theorem applyEdit_step (α : Type) (s0 t t2 k : Nat) (a a2 : α) (h : List (Inst α))
    (H1 : ∀ r ∈ h, ¬ r.replaced_at = none)
    (H2 : ∀ r ∈ h, ¬ r.pk = some 1)
    (H3 : max 1 ((h.map (fun r => r.pk.getD 0)).foldr max 0) + 1 = k) :
    applyEdit (mkCur s0 t a, mkCur s0 t a :: h) (t2, a2) =
      (mkCur s0 t2 a2, mkCur s0 t2 a2 ::
        (h ++ [⟨some k, some 1, t, some t2, some s0, none, none, a, none⟩])) := by
  have hqc : qsCurrent (mkCur s0 t a :: h) = [mkCur s0 t a] := by
    unfold qsCurrent
    rw [List.filter_cons_of_pos (by simp [mkCur])]
    rw [List.filter_eq_nil.mpr (fun r hr => by simpa using H1 r hr)]
  have hfind : (qsCurrent (mkCur s0 t a :: h)).find? (fun r => r.pk = some 1) =
      some (mkCur s0 t a) := by
    rw [hqc]
    exact List.find?_cons_of_pos _ (by simp [mkCur])
  have hfreshk : freshPk (mkCur s0 t a :: h) = k := by
    unfold freshPk mkCur
    simpa using H3
  have heq := pitaSave_update_eq α t2 none ({ mkCur s0 t a with payload := a2 })
    (mkCur s0 t a) (mkCur s0 t a :: h) [] 1 rfl rfl (by simp [mkCur]) hfind
  have hupdrow : updateRow 1 (mkCur s0 t2 a2) (mkCur s0 t a :: h) = mkCur s0 t2 a2 :: h := by
    show (if (mkCur s0 t a).pk = some 1 then mkCur s0 t2 a2 else mkCur s0 t a) ::
        updateRow 1 (mkCur s0 t2 a2) h = _
    rw [if_pos (show (mkCur s0 t a).pk = some 1 from rfl),
      updateRow_of_forall 1 (mkCur s0 t2 a2) h H2]
  unfold applyEdit
  dsimp only
  rw [heq]
  dsimp only
  rw [hfreshk]
  show (mkCur s0 t2 a2,
    updateRow 1 (mkCur s0 t2 a2) (mkCur s0 t a :: h) ++
      [(⟨some k, some 1, t, some t2, some s0, none, none, a, none⟩ : Inst α)]) = _
  rw [hupdrow]
  rfl

/-- Folding a list of edits over a well-shaped chain state produces the
expected current row and appends the expected clones. -/
theorem buildChain_fold (α : Type) (s0 : Nat) :
    ∀ (edits : List (Nat × α)) (t : Nat) (a : α) (h : List (Inst α)) (k : Nat),
    (∀ r ∈ h, ¬ r.replaced_at = none) →
    (∀ r ∈ h, ¬ r.pk = some 1) →
    (max 1 ((h.map (fun r => r.pk.getD 0)).foldr max 0) + 1 = k) →
    edits.foldl applyEdit (mkCur s0 t a, mkCur s0 t a :: h) =
      (mkCur s0 (lastTime t edits) (lastPayload a edits),
        mkCur s0 (lastTime t edits) (lastPayload a edits) :: (h ++ chainHist s0 k t a edits)) := by
  intro edits
  induction edits with
  | nil =>
    intro t a h k H1 H2 H3
    simp [lastTime, lastPayload, chainHist]
  | cons e rest ih =>
    intro t a h k H1 H2 H3
    obtain ⟨t2, a2⟩ := e
    have hk2 : 2 ≤ k := by omega
    rw [List.foldl_cons, applyEdit_step α s0 t t2 k a a2 h H1 H2 H3]
    have H1b : ∀ r ∈ h ++ [(⟨some k, some 1, t, some t2, some s0, none, none, a, none⟩ : Inst α)],
        ¬ r.replaced_at = none := by
      intro r hr
      rcases List.mem_append.mp hr with hm | hm
      · exact H1 r hm
      · rw [List.mem_singleton.mp hm]
        simp
    have H2b : ∀ r ∈ h ++ [(⟨some k, some 1, t, some t2, some s0, none, none, a, none⟩ : Inst α)],
        ¬ r.pk = some 1 := by
      intro r hr
      rcases List.mem_append.mp hr with hm | hm
      · exact H2 r hm
      · rw [List.mem_singleton.mp hm]
        simp
        omega
    have H3b : max 1 (((h ++ [(⟨some k, some 1, t, some t2, some s0, none, none, a, none⟩ : Inst α)]).map
        (fun r => r.pk.getD 0)).foldr max 0) + 1 = k + 1 := by
      simp only [List.map_append, List.map_cons, List.map_nil, foldr_max_append,
        Option.getD_some]
      omega
    rw [ih t2 a2 _ (k + 1) H1b H2b H3b]
    show _ = (mkCur s0 (lastTime t2 rest) (lastPayload a2 rest),
      mkCur s0 (lastTime t2 rest) (lastPayload a2 rest) ::
        (h ++ ((⟨some k, some 1, t, some t2, some s0, none, none, a, none⟩ : Inst α) :: chainHist s0 (k + 1) t2 a2 rest)))
    rw [List.append_assoc]
    rfl

/-- `buildChain` fully characterized: the current row carries the last
write's time and payload, and the clones carry the earlier payloads on
abutting transaction-time intervals. -/
theorem buildChain_eq (α : Type) (t0 : Nat) (a : α) (edits : List (Nat × α)) :
    buildChain t0 a edits =
      (mkCur t0 (lastTime t0 edits) (lastPayload a edits),
        mkCur t0 (lastTime t0 edits) (lastPayload a edits) :: chainHist t0 2 t0 a edits) := by
  unfold buildChain
  have hcreate : createAt t0 a = (mkCur t0 t0 a, [mkCur t0 t0 a]) := rfl
  rw [hcreate]
  have := buildChain_fold α t0 edits t0 a [] 2
    (by intro r hr; cases hr) (by intro r hr; cases hr) (by simp)
  simpa using this

/-- The clones' intervals are exactly the abutting pairs of write
times. -/
theorem intervalsOf_chainHist (α : Type) (s0 : Nat) :
    ∀ (edits : List (Nat × α)) (k t : Nat) (a : α),
    intervalsOf (chainHist s0 k t a edits) = timePairs t edits := by
  intro edits
  induction edits with
  | nil => intro k t a; rfl
  | cons e rest ih =>
    intro k t a
    obtain ⟨t2, a2⟩ := e
    show (t, some t2) :: intervalsOf (chainHist s0 (k + 1) t2 a2 rest) = _
    rw [ih]
    rfl

/-- Every interval of a chain starts no earlier than the chain's first
write. -/
theorem timePairs_left_ge (α : Type) :
    ∀ (edits : List (Nat × α)) (t : Nat),
    List.Chain' (· < ·) (t :: edits.map Prod.fst) →
    ∀ p ∈ timePairs t edits, t ≤ p.1 := by
  intro edits
  induction edits with
  | nil => intro t _ p hp; cases hp
  | cons e rest ih =>
    intro t hch p hp
    obtain ⟨t2, a2⟩ := e
    rw [List.map_cons, List.chain'_cons] at hch
    rcases List.mem_cons.mp hp with rfl | hm
    · exact le_refl t
    · exact le_trans (le_of_lt hch.1) (ih t2 hch.2 p hm)

/-- The last write time of a strictly increasing chain is at least its
first. -/
theorem lastTime_ge (α : Type) :
    ∀ (edits : List (Nat × α)) (t : Nat),
    List.Chain' (· < ·) (t :: edits.map Prod.fst) →
    t ≤ lastTime t edits := by
  intro edits
  induction edits with
  | nil => intro t _; exact le_refl t
  | cons e rest ih =>
    intro t hch
    obtain ⟨t2, a2⟩ := e
    rw [List.map_cons, List.chain'_cons] at hch
    exact le_trans (le_of_lt hch.1) (ih t2 hch.2)

/-- At most one interval of a strictly increasing chain — the open
current interval included — contains any given instant. -/
theorem countP_intervals_le_one (α : Type) (q : Nat) :
    ∀ (edits : List (Nat × α)) (t : Nat),
    List.Chain' (· < ·) (t :: edits.map Prod.fst) →
    ((lastTime t edits, (none : Option Nat)) :: timePairs t edits).countP (versionMatches q) ≤ 1 := by
  intro edits
  induction edits with
  | nil =>
    intro t _
    show List.countP _ [(t, none)] ≤ 1
    rw [List.countP_cons, List.countP_nil]
    split <;> omega
  | cons e rest ih =>
    intro t hch
    obtain ⟨t2, a2⟩ := e
    rw [List.map_cons, List.chain'_cons] at hch
    have hlast : lastTime t ((t2, a2) :: rest) = lastTime t2 rest := rfl
    show ((lastTime t2 rest, (none : Option Nat)) :: (t, some t2) :: timePairs t2 rest).countP
      (versionMatches q) ≤ 1
    by_cases hq : q < t2
    · have ht2last : t2 ≤ lastTime t2 rest := lastTime_ge α rest t2 hch.2
      have hhead : versionMatches q (lastTime t2 rest, (none : Option Nat)) = false := by
        show (true && decide (lastTime t2 rest ≤ q)) = false
        rw [Bool.true_and, decide_eq_false_iff_not]
        omega
      have htail : (timePairs t2 rest).countP (versionMatches q) = 0 := by
        rw [List.countP_eq_zero]
        intro p hp
        have hge := timePairs_left_ge α rest t2 hch.2 p hp
        unfold versionMatches
        simp only [Bool.and_eq_true, decide_eq_true_eq, not_and]
        intro _
        omega
      rw [List.countP_cons, List.countP_cons, htail, hhead]
      split <;> simp
    · have hmid : versionMatches q (t, some t2) = false := by
        show (decide (q < t2) && decide (t ≤ q)) = false
        rw [decide_eq_false hq, Bool.false_and]
      have hih := ih t2 hch.2
      rw [List.countP_cons] at hih
      rw [List.countP_cons, List.countP_cons, hmid]
      simp only [Bool.false_eq_true, if_false, Nat.add_zero]
      exact hih

/-- **C9.** In every update the clone's `replaced_at` and the new
current version's `created_at` come from the same captured timestamp:
for a group built by a create followed by strictly later edits, the
transaction-time intervals are exactly the abutting pairs of write
times — each clone's `replaced_at` equals the next version's
`created_at`, the current version's interval starts at the last write —
with no gap and no overlap, and `version(q)` returns at most one
version of the group for any instant `q`. -/
theorem C9_transaction_intervals_abut (α : Type) (t0 : Nat) (a : α)
    (edits : List (Nat × α))
    (hchain : List.Chain' (· < ·) (t0 :: edits.map Prod.fst)) :
    (buildChain t0 a edits).1.created_at = lastTime t0 edits ∧
    intervalsOf (buildChain t0 a edits).2 =
      (lastTime t0 edits, (none : Option Nat)) :: timePairs t0 edits ∧
    ∀ q : Nat, (recordsVersion (.dt q) (buildChain t0 a edits).2).length ≤ 1 := by
  rw [buildChain_eq α t0 a edits]
  have hiv : intervalsOf (mkCur t0 (lastTime t0 edits) (lastPayload a edits) ::
      chainHist t0 2 t0 a edits) =
      (lastTime t0 edits, (none : Option Nat)) :: timePairs t0 edits := by
    show (lastTime t0 edits, (none : Option Nat)) :: intervalsOf (chainHist t0 2 t0 a edits) = _
    rw [intervalsOf_chainHist]
  refine ⟨rfl, hiv, ?_⟩
  intro q
  show (qsVersion (.dt q) (mkCur t0 (lastTime t0 edits) (lastPayload a edits) ::
    chainHist t0 2 t0 a edits)).length ≤ 1
  unfold qsVersion
  rw [← List.countP_eq_length_filter]
  have hmap : List.countP (versionPred (normalizeTimeInput (.dt q)))
      (mkCur t0 (lastTime t0 edits) (lastPayload a edits) :: chainHist t0 2 t0 a edits) =
      List.countP (versionMatches q) (intervalsOf (mkCur t0 (lastTime t0 edits) (lastPayload a edits) ::
        chainHist t0 2 t0 a edits)) := by
    unfold intervalsOf
    rw [List.countP_map]
    rfl
  rw [hmap, hiv]
  exact countP_intervals_le_one α q edits t0 hchain

theorem C9_witness :
    (buildChain 100 (10 : Int) [(200, 20), (300, 30)]).1.created_at =
      lastTime 100 [(200, 20), (300, 30)] ∧
    intervalsOf (buildChain 100 (10 : Int) [(200, 20), (300, 30)]).2 =
      (lastTime 100 [(200, 20), (300, 30)], (none : Option Nat)) ::
        timePairs 100 [(200, 20), (300, 30)] ∧
    ∀ q : Nat,
      (recordsVersion (.dt q) (buildChain 100 (10 : Int) [(200, 20), (300, 30)]).2).length ≤ 1 :=
  C9_transaction_intervals_abut Int 100 10 [(200, 20), (300, 30)]
    (by
      simp only [List.map_cons, List.map_nil]
      exact List.chain'_cons.mpr ⟨by norm_num,
        List.chain'_cons.mpr ⟨by norm_num, List.chain'_singleton _⟩⟩)

end Pita
